import Mathlib

/-!
Shallow embedding of the `ringbuffer-spsc` crate (`src/lib.rs`).

The crate is a fixed-capacity single-producer/single-consumer ring buffer.
The shared storage holds a boxed slice of `MaybeUninit<T>` cells plus two
atomic `usize` indices (`idx_r`, `idx_w`); the writer handle keeps a private
counter `local_idx_w` and a cached copy `cached_idx_r` of the reader's index,
and the reader handle symmetrically keeps `local_idx_r` and `cached_idx_w`.
Indices grow monotonically and wrap modulo `2 ^ 64`; the slot position is
obtained with the bitmask `idx &&& (capacity - 1)`.

The embedding merges the shared storage and the two handles into a single
record `Spsc.RBState` and threads it explicitly through every operation,
which models any sequential interleaving of the producer's and the consumer's
calls.  A `MaybeUninit<T>` cell is modelled as `Option T`: `none` stands for
an uninitialised (or already moved-out) cell.  A read of an uninitialised
cell — undefined behaviour in the source — surfaces as `none`.
-/

namespace Spsc

/-- Number of values of a 64-bit `usize`; index arithmetic wraps modulo this
constant (the literal is `2 ^ 64`). -/
def USIZE : Nat := 18446744073709551616

theorem usize_eq : USIZE = 2 ^ 64 := by norm_num [USIZE]

/-- Model of `usize::wrapping_sub` for operands below `USIZE`. -/
def wrapping_sub (a b : Nat) : Nat := (a + USIZE - b) % USIZE

/-- Model of `usize::wrapping_add(1)`, the index increment used by the crate. -/
def wrapping_add1 (a : Nat) : Nat := (a + 1) % USIZE

/-- Model of `usize::is_power_of_two` from the Rust standard library, which
holds iff the argument equals `2 ^ k` for some `k` (the bound `k ≤ n` only
makes the predicate executable; it is implied by `n = 2 ^ k`). -/
def is_power_of_two (n : Nat) : Bool := decide (∃ k, k ≤ n ∧ n = 2 ^ k)

/-- Combined state of one ring buffer: the shared `RingBuffer` storage
(`slots`, `idx_r`, `idx_w`) together with the fields of the unique
`RingBufferWriter` (`cached_idx_r`, `local_idx_w`) and of the unique
`RingBufferReader` (`local_idx_r`, `cached_idx_w`). -/
structure RBState (T : Type) where
  slots : List (Option T)
  idx_r : Nat
  idx_w : Nat
  cached_idx_r : Nat
  local_idx_w : Nat
  local_idx_r : Nat
  cached_idx_w : Nat

/-- Model of `capacity()`: the length of the backing slice. -/
def RBState.capacity (s : RBState T) : Nat := s.slots.length

/-- Model of the constructor `ringbuffer::<T>(capacity)`.  The source asserts
`capacity.is_power_of_two()` (panicking otherwise, modelled by `none`),
allocates `capacity` uninitialised cells and zero-initialises both atomic
indices and all four handle-local fields. -/
def ringbuffer (T : Type) (capacity : Nat) : Option (RBState T) :=
  if is_power_of_two capacity then
    some { slots := List.replicate capacity none
           idx_r := 0
           idx_w := 0
           cached_idx_r := 0
           local_idx_w := 0
           local_idx_r := 0
           cached_idx_w := 0 }
  else
    none

/-- Model of `RingBufferWriter::is_full`: when the wrapping difference of
`local_idx_w` and `cached_idx_r` equals the capacity, refresh `cached_idx_r`
from the atomic `idx_r` and re-check; otherwise report not-full without
touching anything. -/
def is_full (s : RBState T) : Bool × RBState T :=
  if wrapping_sub s.local_idx_w s.cached_idx_r = s.slots.length then
    let c := s.idx_r
    (decide (wrapping_sub s.local_idx_w c = s.slots.length),
     { s with cached_idx_r := c })
  else
    (false, s)

/-- Model of `RingBufferWriter::push`: give the value back if `is_full`,
otherwise overwrite the cell at `local_idx_w &&& mask`, increment
`local_idx_w` with wrapping and publish it into the atomic `idx_w`. -/
def push (s : RBState T) (t : T) : Option T × RBState T :=
  match is_full s with
  | (true, s1) => (some t, s1)
  | (false, s1) =>
    (none,
     { s1 with
        slots := s1.slots.set (s1.local_idx_w &&& (s1.slots.length - 1)) (some t)
        local_idx_w := wrapping_add1 s1.local_idx_w
        idx_w := wrapping_add1 s1.local_idx_w })

/-- Model of `RingBufferReader::is_empty`: when `local_idx_r` equals
`cached_idx_w`, refresh `cached_idx_w` from the atomic `idx_w` and re-check;
otherwise report not-empty without touching anything. -/
def is_empty (s : RBState T) : Bool × RBState T :=
  if s.local_idx_r = s.cached_idx_w then
    let c := s.idx_w
    (decide (s.local_idx_r = c), { s with cached_idx_w := c })
  else
    (false, s)

/-- Model of `RingBufferReader::pull`: return `none` if `is_empty`, otherwise
move the value out of the cell at `local_idx_r &&& mask` (leaving it
uninitialised), increment `local_idx_r` with wrapping and publish it into the
atomic `idx_r`. -/
def pull (s : RBState T) : Option T × RBState T :=
  match is_empty s with
  | (true, s1) => (none, s1)
  | (false, s1) =>
    (s1.slots.getD (s1.local_idx_r &&& (s1.slots.length - 1)) none,
     { s1 with
        slots := s1.slots.set (s1.local_idx_r &&& (s1.slots.length - 1)) none
        local_idx_r := wrapping_add1 s1.local_idx_r
        idx_r := wrapping_add1 s1.local_idx_r })

/-- Model of `RingBufferReader::peek`: same emptiness check as `pull`, but the
cell content is only borrowed — the slot and `local_idx_r` stay untouched. -/
def peek (s : RBState T) : Option T × RBState T :=
  match is_empty s with
  | (true, s1) => (none, s1)
  | (false, s1) =>
    (s1.slots.getD (s1.local_idx_r &&& (s1.slots.length - 1)) none, s1)

/-- Model of `RingBufferReader::peek_mut` followed by the caller applying `f`
through the returned mutable reference: same emptiness check as `pull`; on
success the cell at `local_idx_r &&& mask` is replaced by `f` of its content
and that new value is what the caller observes. -/
def peek_mut_apply (s : RBState T) (f : T → T) : Option T × RBState T :=
  match is_empty s with
  | (true, s1) => (none, s1)
  | (false, s1) =>
    match s1.slots.getD (s1.local_idx_r &&& (s1.slots.length - 1)) none with
    | none => (none, s1)
    | some v =>
      (some (f v),
       { s1 with
          slots := s1.slots.set (s1.local_idx_r &&& (s1.slots.length - 1))
            (some (f v)) })

/-- Loop body of `Drop for RingBuffer`: starting at index `idx`, take `n`
cells at positions `idx &&& mask`, `(idx+1) &&& mask`, … (marking each cell
uninitialised), returning the final slot array and the list of taken cell
contents, in order. -/
def drainLoop (mask : Nat) :
    List (Option T) → Nat → Nat → List (Option T) × List (Option T)
  | slots, _, 0 => (slots, [])
  | slots, idx, n + 1 =>
    let t := slots.getD (idx &&& mask) none
    let r := drainLoop mask (slots.set (idx &&& mask) none) (wrapping_add1 idx) n
    (r.1, t :: r.2)

/-- Model of `Drop for RingBuffer`: load both atomic indices and, while
`idx_r ≠ idx_w`, take and destroy the cell at `idx_r &&& mask`, incrementing
`idx_r` with wrapping.  The loop runs exactly `wrapping_sub idx_w idx_r`
times; the result is the list of destroyed cell contents, in order. -/
def rbDrop (s : RBState T) : List (Option T) :=
  (drainLoop (s.slots.length - 1) s.slots s.idx_r
    (wrapping_sub s.idx_w s.idx_r)).2

/-- One API call of the sequential interleaving: a producer `push` of a given
value, or a consumer `pull`. -/
inductive Op (T : Type) where
  | push : T → Op T
  | pull : Op T

/-- Run a sequence of API calls, returning the list of values accepted by
`push` (in order), the list of values returned by `pull` (in order), and the
final state.  Rejected pushes and empty pulls contribute nothing. -/
def runOps : List (Op T) → RBState T → List T × List T × RBState T
  | [], s => ([], [], s)
  | Op.push v :: ops, s =>
    let p := push s v
    let r := runOps ops p.2
    match p.1 with
    | none => (v :: r.1, r.2.1, r.2.2)
    | some _ => (r.1, r.2.1, r.2.2)
  | Op.pull :: ops, s =>
    let p := pull s
    let r := runOps ops p.2
    match p.1 with
    | some v => (r.1, v :: r.2.1, r.2.2)
    | none => (r.1, r.2.1, r.2.2)

/-! ### Arithmetic helper lemmas -/

theorem wsub_ghost (R W : Nat) (h : R ≤ W) (hD : W - R < USIZE) :
    wrapping_sub (W % USIZE) (R % USIZE) = W - R := by
  simp only [wrapping_sub, USIZE] at hD ⊢
  omega

theorem wadd1_ghost (W : Nat) : wrapping_add1 (W % USIZE) = (W + 1) % USIZE := by
  simp only [wrapping_add1, USIZE]
  omega

theorem mod_usize_eq_iff (a b : Nat) (hab : a ≤ b) (h : b - a < USIZE) :
    a % USIZE = b % USIZE ↔ a = b := by
  simp only [USIZE] at h ⊢
  omega

theorem mask_mod (n k : Nat) : n &&& (2 ^ k - 1) = n % 2 ^ k :=
  Nat.and_pow_two_sub_one_eq_mod n k

theorem mod_usize_mod_pow (W k : Nat) (hk : k ≤ 64) :
    W % USIZE % 2 ^ k = W % 2 ^ k := by
  rw [usize_eq]
  exact Nat.mod_mod_of_dvd W (Nat.pow_dvd_pow 2 hk)

theorem pow_lt_usize (k : Nat) (hk : k < 64) : 2 ^ k < USIZE := by
  rw [usize_eq]
  exact Nat.pow_lt_pow_right (by omega) hk

theorem mod_ne_of_lt_of_sub_lt (a b c : Nat) (hab : a < b) (h : b - a < c) :
    a % c ≠ b % c := by
  intro he
  have hd : c ∣ b - a := (Nat.modEq_iff_dvd' (Nat.le_of_lt hab)).1 he
  have := Nat.eq_zero_of_dvd_of_lt hd h
  omega

theorem getD_set_self (l : List (Option T)) (i : Nat) (hi : i < l.length)
    (a : Option T) : (l.set i a).getD i none = a := by
  simp [List.getD_eq_getElem?_getD, List.getElem?_set_self, hi]

theorem getD_set_ne (l : List (Option T)) (i j : Nat) (hij : i ≠ j)
    (a : Option T) : (l.set i a).getD j none = l.getD j none := by
  simp [List.getD_eq_getElem?_getD, List.getElem?_set_ne, hij]

/-! ### The reachability invariant

`InvG s pending k W R CR CW` relates a state to the abstract queue `pending`
of values pushed but not yet pulled.  The ghost naturals `W`, `R`, `CR`, `CW`
are the unbounded ("true") values of the write counter, read counter, and the
writer's/reader's cached copies; the concrete `usize` fields of the state are
these ghosts reduced modulo `USIZE`, so states on both sides of an index
wraparound are covered. -/

structure InvG (s : RBState T) (pending : List T) (k W R CR CW : Nat) : Prop where
  hk : k < 64
  hlen : s.slots.length = 2 ^ k
  hRW : R ≤ W
  hpend : W - R = pending.length
  hcap : W - R ≤ 2 ^ k
  hCR : CR ≤ R
  hWCR : W - CR ≤ 2 ^ k
  hCW1 : R ≤ CW
  hCW2 : CW ≤ W
  hlw : s.local_idx_w = W % USIZE
  hiw : s.idx_w = W % USIZE
  hlr : s.local_idx_r = R % USIZE
  hir : s.idx_r = R % USIZE
  hcr : s.cached_idx_r = CR % USIZE
  hcw : s.cached_idx_w = CW % USIZE
  hslots : ∀ i, i < pending.length →
    s.slots.getD ((R + i) % 2 ^ k) none = pending[i]?

/-- Reachability invariant with the ghost counters quantified away: the state
represents the queue `pending`. -/
def Inv (s : RBState T) (pending : List T) : Prop :=
  ∃ k W R CR CW, InvG s pending k W R CR CW

theorem ringbuffer_invG {T : Type} {cap : Nat} {s : RBState T}
    (h : ringbuffer T cap = some s) (hcap : cap < USIZE) :
    ∃ k, k < 64 ∧ cap = 2 ^ k ∧ InvG s [] k 0 0 0 0 := by
  unfold ringbuffer at h
  by_cases hp : is_power_of_two cap
  · rw [if_pos hp] at h
    obtain ⟨k, _, hk2⟩ := of_decide_eq_true hp
    refine ⟨k, ?_, hk2, ?_⟩
    · rw [usize_eq] at hcap
      have : (2 : Nat) ^ k < 2 ^ 64 := hk2 ▸ hcap
      exact (Nat.pow_lt_pow_iff_right (by omega)).1 this
    · obtain rfl : _ = s := Option.some_injective _ h
      exact
        { hk := by
            rw [usize_eq] at hcap
            have : (2 : Nat) ^ k < 2 ^ 64 := hk2 ▸ hcap
            exact (Nat.pow_lt_pow_iff_right (by omega)).1 this
          hlen := by simp [hk2]
          hRW := le_refl 0
          hpend := rfl
          hcap := by simp
          hCR := le_refl 0
          hWCR := by simp
          hCW1 := le_refl 0
          hCW2 := le_refl 0
          hlw := (Nat.zero_mod _).symm
          hiw := (Nat.zero_mod _).symm
          hlr := (Nat.zero_mod _).symm
          hir := (Nat.zero_mod _).symm
          hcr := (Nat.zero_mod _).symm
          hcw := (Nat.zero_mod _).symm
          hslots := by intro i hi; simp at hi }
  · rw [if_neg hp] at h
    exact absurd h (by simp)

/-! ### Step lemmas: each operation seen through the invariant -/

theorem update_cached_idx_r_eta (s : RBState T) (h : s.idx_r = s.cached_idx_r) :
    ({ s with cached_idx_r := s.idx_r } : RBState T) = s := by
  obtain ⟨sl, ir, iw, cr, lw, lr, cw⟩ := s
  simp only at h
  simp [h]

theorem update_cached_idx_w_eta (s : RBState T) (h : s.idx_w = s.cached_idx_w) :
    ({ s with cached_idx_w := s.idx_w } : RBState T) = s := by
  obtain ⟨sl, ir, iw, cr, lw, lr, cw⟩ := s
  simp only at h
  simp [h]

theorem is_full_spec {T : Type} {s : RBState T} {pending : List T}
    {k W R CR CW : Nat} (h : InvG s pending k W R CR CW) :
    ∃ CR', CR' ≤ R ∧ InvG (is_full s).2 pending k W R CR' CW ∧
      (is_full s).1 = decide (pending.length = 2 ^ k) ∧
      (pending.length ≠ 2 ^ k → W - CR' < 2 ^ k) ∧
      (pending.length = 2 ^ k → (is_full s).2 = s) := by
  obtain ⟨hk, hlen, hRW, hpend, hcap, hCR, hWCR, hCW1, hCW2, hlw, hiw, hlr,
    hir, hcr, hcw, hslots⟩ := h
  have hcapU : (2 : Nat) ^ k < USIZE := pow_lt_usize k hk
  have hCRW : CR ≤ W := le_trans hCR hRW
  have hfast : wrapping_sub s.local_idx_w s.cached_idx_r = W - CR := by
    rw [hlw, hcr]
    exact wsub_ghost CR W hCRW (by omega)
  by_cases hc : W - CR = 2 ^ k
  · -- the fast-path difference equals the capacity: refresh `cached_idx_r`
    have hcond : wrapping_sub s.local_idx_w s.cached_idx_r = s.slots.length := by
      rw [hfast, hlen, hc]
    have hsub2 : wrapping_sub s.local_idx_w s.idx_r = W - R := by
      rw [hlw, hir]
      exact wsub_ghost R W hRW (by omega)
    have hif : is_full s =
        (decide (wrapping_sub s.local_idx_w s.idx_r = s.slots.length),
         { s with cached_idx_r := s.idx_r }) := by
      unfold is_full
      rw [if_pos hcond]
    refine ⟨R, le_refl R, ?_, ?_, ?_, ?_⟩
    · rw [hif]
      exact
        { hk := hk
          hlen := hlen
          hRW := hRW
          hpend := hpend
          hcap := hcap
          hCR := le_refl R
          hWCR := hcap
          hCW1 := hCW1
          hCW2 := hCW2
          hlw := hlw
          hiw := hiw
          hlr := hlr
          hir := hir
          hcr := hir
          hcw := hcw
          hslots := hslots }
    · rw [hif]
      simp only [hsub2, hlen]
      exact decide_eq_decide.mpr (by omega)
    · intro hne
      omega
    · intro hfull
      rw [hif]
      have hCReq : CR = R := by omega
      exact update_cached_idx_r_eta s (by rw [hir, hcr, hCReq])
  · -- the fast-path difference is not the capacity: nothing happens
    have hcond : ¬ wrapping_sub s.local_idx_w s.cached_idx_r = s.slots.length := by
      rw [hfast, hlen]
      exact hc
    have hif : is_full s = (false, s) := by
      unfold is_full
      rw [if_neg hcond]
    have hnotfull : pending.length ≠ 2 ^ k := by
      intro hfull
      omega
    refine ⟨CR, hCR, ?_, ?_, ?_, ?_⟩
    · rw [hif]
      exact
        { hk := hk, hlen := hlen, hRW := hRW, hpend := hpend, hcap := hcap
          hCR := hCR, hWCR := hWCR, hCW1 := hCW1, hCW2 := hCW2, hlw := hlw
          hiw := hiw, hlr := hlr, hir := hir, hcr := hcr, hcw := hcw
          hslots := hslots }
    · rw [hif, decide_eq_false hnotfull]
    · intro _
      omega
    · intro hfull
      exact absurd hfull hnotfull

theorem is_empty_spec {T : Type} {s : RBState T} {pending : List T}
    {k W R CR CW : Nat} (h : InvG s pending k W R CR CW) :
    ∃ CW', R ≤ CW' ∧ CW' ≤ W ∧ InvG (is_empty s).2 pending k W R CR CW' ∧
      (is_empty s).1 = decide (pending.length = 0) ∧
      (pending.length ≠ 0 → R < CW') ∧
      (pending.length = 0 → (is_empty s).2 = s) := by
  obtain ⟨hk, hlen, hRW, hpend, hcap, hCR, hWCR, hCW1, hCW2, hlw, hiw, hlr,
    hir, hcr, hcw, hslots⟩ := h
  have hcapU : (2 : Nat) ^ k < USIZE := pow_lt_usize k hk
  have hfast : s.local_idx_r = s.cached_idx_w ↔ R = CW := by
    rw [hlr, hcw]
    exact mod_usize_eq_iff R CW hCW1 (by omega)
  by_cases hc : R = CW
  · -- the fast-path check triggers: refresh `cached_idx_w`
    have hif : is_empty s =
        (decide (s.local_idx_r = s.idx_w), { s with cached_idx_w := s.idx_w }) := by
      unfold is_empty
      rw [if_pos (hfast.2 hc)]
    have hdec : (s.local_idx_r = s.idx_w) ↔ R = W := by
      rw [hlr, hiw]
      exact mod_usize_eq_iff R W hRW (by omega)
    refine ⟨W, hRW, le_refl W, ?_, ?_, ?_, ?_⟩
    · rw [hif]
      exact
        { hk := hk, hlen := hlen, hRW := hRW, hpend := hpend, hcap := hcap
          hCR := hCR, hWCR := hWCR, hCW1 := hRW, hCW2 := le_refl W, hlw := hlw
          hiw := hiw, hlr := hlr, hir := hir, hcr := hcr, hcw := hiw
          hslots := hslots }
    · rw [hif]
      simp only
      exact decide_eq_decide.mpr (by rw [hdec]; omega)
    · intro hne
      omega
    · intro hzero
      rw [hif]
      have hCWeq : CW = W := by omega
      exact update_cached_idx_w_eta s (by rw [hiw, hcw, hCWeq])
  · -- the reader already knows the buffer is non-empty
    have hif : is_empty s = (false, s) := by
      unfold is_empty
      rw [if_neg (fun hx => hc (hfast.1 hx))]
    have hne : pending.length ≠ 0 := by
      intro hzero
      omega
    refine ⟨CW, hCW1, hCW2, ?_, ?_, ?_, ?_⟩
    · rw [hif]
      exact
        { hk := hk, hlen := hlen, hRW := hRW, hpend := hpend, hcap := hcap
          hCR := hCR, hWCR := hWCR, hCW1 := hCW1, hCW2 := hCW2, hlw := hlw
          hiw := hiw, hlr := hlr, hir := hir, hcr := hcr, hcw := hcw
          hslots := hslots }
    · rw [hif, decide_eq_false hne]
    · intro _
      omega
    · intro hzero
      exact absurd hzero hne

theorem push_full {T : Type} {s : RBState T} {pending : List T}
    {k W R CR CW : Nat} (h : InvG s pending k W R CR CW)
    (hfull : pending.length = 2 ^ k) (v : T) :
    push s v = (some v, s) := by
  obtain ⟨CR', _, _, hb, _, hs⟩ := is_full_spec h
  have hsplit : is_full s = (true, s) := by
    have h1 : (is_full s).1 = true := by rw [hb, decide_eq_true_eq]; exact hfull
    calc is_full s = ((is_full s).1, (is_full s).2) := rfl
      _ = (true, s) := by rw [h1, hs hfull]
  unfold push
  rw [hsplit]

theorem push_succ {T : Type} {s : RBState T} {pending : List T}
    {k W R CR CW : Nat} (h : InvG s pending k W R CR CW)
    (hlt : pending.length < 2 ^ k) (v : T) :
    (push s v).1 = none ∧
      ∃ CR', InvG (push s v).2 (pending ++ [v]) k (W + 1) R CR' CW := by
  obtain ⟨CR', hCR'le, h1, hb, hsmall, _⟩ := is_full_spec h
  have hb0 : (is_full s).1 = false := by
    rw [hb, decide_eq_false (by omega)]
  have hsplit : is_full s = (false, (is_full s).2) := Prod.ext hb0 rfl
  obtain ⟨hk, hlen, hRW, hpend, hcap, hCR, hWCR, hCW1, hCW2, hlw, hiw, hlr,
    hir, hcr, hcw, hslots⟩ := h1
  have hWCR' : W + 1 - CR' ≤ 2 ^ k := by
    have := hsmall (by omega)
    omega
  have hpush : push s v =
      (none,
       { (is_full s).2 with
          slots := (is_full s).2.slots.set
            ((is_full s).2.local_idx_w &&& ((is_full s).2.slots.length - 1))
            (some v)
          local_idx_w := wrapping_add1 (is_full s).2.local_idx_w
          idx_w := wrapping_add1 (is_full s).2.local_idx_w }) := by
    unfold push
    rw [hsplit]
  have hidx : (is_full s).2.local_idx_w &&& ((is_full s).2.slots.length - 1) =
      W % 2 ^ k := by
    rw [hlw, hlen, mask_mod]
    exact mod_usize_mod_pow W k (Nat.le_of_lt hk)
  refine ⟨by rw [hpush], CR', ?_⟩
  rw [hpush]
  exact
    { hk := hk
      hlen := by simp [hlen]
      hRW := by omega
      hpend := by simp; omega
      hcap := by omega
      hCR := hCR
      hWCR := hWCR'
      hCW1 := hCW1
      hCW2 := by omega
      hlw := by simp only [hidx]; rw [hlw, wadd1_ghost]
      hiw := by simp only [hidx]; rw [hlw, wadd1_ghost]
      hlr := hlr
      hir := hir
      hcr := hcr
      hcw := hcw
      hslots := by
        intro i hi
        simp only [hidx, List.length_append, List.length_singleton] at hi ⊢
        by_cases hilt : i < pending.length
        · have hne : (R + i) % 2 ^ k ≠ W % 2 ^ k := by
            apply mod_ne_of_lt_of_sub_lt (R + i) W (2 ^ k) (by omega) (by omega)
          rw [getD_set_ne _ _ _ (fun hx => hne hx.symm), hslots i hilt,
            List.getElem?_append_left hilt]
        · have hieq : i = pending.length := by omega
          have hRi : R + i = W := by omega
          rw [hRi, getD_set_self _ _ (by rw [hlen]; exact Nat.mod_lt _ (by positivity)),
            hieq]
          simp }

theorem pull_nil {T : Type} {s : RBState T} {k W R CR CW : Nat}
    (h : InvG s [] k W R CR CW) : pull s = (none, s) := by
  obtain ⟨CW', _, _, _, hb, _, hs⟩ := is_empty_spec h
  have hsplit : is_empty s = (true, s) := by
    have h1 : (is_empty s).1 = true := by rw [hb]; rfl
    calc is_empty s = ((is_empty s).1, (is_empty s).2) := rfl
      _ = (true, s) := by rw [h1, hs rfl]
  unfold pull
  rw [hsplit]

theorem pull_cons {T : Type} {s : RBState T} {v : T} {rest : List T}
    {k W R CR CW : Nat} (h : InvG s (v :: rest) k W R CR CW) :
    (pull s).1 = some v ∧
      ∃ CW', InvG (pull s).2 rest k W (R + 1) CR CW' := by
  obtain ⟨CW', hCW'1, hCW'2, h1, hb, hlt, _⟩ := is_empty_spec h
  have hb0 : (is_empty s).1 = false := by
    rw [hb, decide_eq_false (by simp)]
  have hsplit : is_empty s = (false, (is_empty s).2) := Prod.ext hb0 rfl
  obtain ⟨hk, hlen, hRW, hpend, hcap, hCR, hWCR, hCW1, hCW2, hlw, hiw, hlr,
    hir, hcr, hcw, hslots⟩ := h1
  simp only [List.length_cons] at hpend
  have hRCW : R < CW' := hlt (by simp)
  have hidx : (is_empty s).2.local_idx_r &&& ((is_empty s).2.slots.length - 1) =
      R % 2 ^ k := by
    rw [hlr, hlen, mask_mod]
    exact mod_usize_mod_pow R k (Nat.le_of_lt hk)
  have hval : (is_empty s).2.slots.getD (R % 2 ^ k) none = some v := by
    have := hslots 0 (by simp)
    simpa using this
  have hpull : pull s =
      (some v,
       { (is_empty s).2 with
          slots := (is_empty s).2.slots.set (R % 2 ^ k) none
          local_idx_r := wrapping_add1 (is_empty s).2.local_idx_r
          idx_r := wrapping_add1 (is_empty s).2.local_idx_r }) := by
    unfold pull
    rw [hsplit]
    simp only [hidx, hval]
  refine ⟨by rw [hpull], CW', ?_⟩
  rw [hpull]
  exact
    { hk := hk
      hlen := by simp [hlen]
      hRW := by omega
      hpend := by omega
      hcap := by omega
      hCR := by omega
      hWCR := hWCR
      hCW1 := hRCW
      hCW2 := hCW'2
      hlw := hlw
      hiw := hiw
      hlr := by simp only; rw [hlr, wadd1_ghost]
      hir := by simp only; rw [hlr, wadd1_ghost]
      hcr := hcr
      hcw := hcw
      hslots := by
        intro i hi
        simp only
        have hRi : R + 1 + i = R + (i + 1) := by omega
        have hne : R % 2 ^ k ≠ (R + (i + 1)) % 2 ^ k := by
          apply mod_ne_of_lt_of_sub_lt R (R + (i + 1)) (2 ^ k) (by omega) (by omega)
        rw [show R + 1 + i = R + (i + 1) from hRi, getD_set_ne _ _ _ hne,
          hslots (i + 1) (by simpa using hi)]
        simp }

theorem peek_nil {T : Type} {s : RBState T} {k W R CR CW : Nat}
    (h : InvG s [] k W R CR CW) : peek s = (none, s) := by
  obtain ⟨CW', _, _, _, hb, _, hs⟩ := is_empty_spec h
  have hsplit : is_empty s = (true, s) := by
    have h1 : (is_empty s).1 = true := by rw [hb]; rfl
    calc is_empty s = ((is_empty s).1, (is_empty s).2) := rfl
      _ = (true, s) := by rw [h1, hs rfl]
  unfold peek
  rw [hsplit]

theorem peek_cons {T : Type} {s : RBState T} {v : T} {rest : List T}
    {k W R CR CW : Nat} (h : InvG s (v :: rest) k W R CR CW) :
    (peek s).1 = some v ∧
      ∃ CW', InvG (peek s).2 (v :: rest) k W R CR CW' := by
  obtain ⟨CW', hCW'1, hCW'2, h1, hb, hlt, _⟩ := is_empty_spec h
  have hb0 : (is_empty s).1 = false := by
    rw [hb, decide_eq_false (by simp)]
  have hsplit : is_empty s = (false, (is_empty s).2) := Prod.ext hb0 rfl
  have hidx : (is_empty s).2.local_idx_r &&& ((is_empty s).2.slots.length - 1) =
      R % 2 ^ k := by
    rw [h1.hlr, h1.hlen, mask_mod]
    exact mod_usize_mod_pow R k (Nat.le_of_lt h1.hk)
  have hval : (is_empty s).2.slots.getD (R % 2 ^ k) none = some v := by
    have := h1.hslots 0 (by simp)
    simpa using this
  have hpeek : peek s = (some v, (is_empty s).2) := by
    unfold peek
    rw [hsplit]
    simp only [hidx, hval]
  exact ⟨by rw [hpeek], CW', by rw [hpeek]; exact h1⟩

theorem peek_mut_nil {T : Type} {s : RBState T} {k W R CR CW : Nat}
    (h : InvG s [] k W R CR CW) (f : T → T) : peek_mut_apply s f = (none, s) := by
  obtain ⟨CW', _, _, _, hb, _, hs⟩ := is_empty_spec h
  have hsplit : is_empty s = (true, s) := by
    have h1 : (is_empty s).1 = true := by rw [hb]; rfl
    calc is_empty s = ((is_empty s).1, (is_empty s).2) := rfl
      _ = (true, s) := by rw [h1, hs rfl]
  unfold peek_mut_apply
  rw [hsplit]

theorem peek_mut_cons {T : Type} {s : RBState T} {v : T} {rest : List T}
    {k W R CR CW : Nat} (h : InvG s (v :: rest) k W R CR CW) (f : T → T) :
    (peek_mut_apply s f).1 = some (f v) ∧
      ∃ CW', InvG (peek_mut_apply s f).2 (f v :: rest) k W R CR CW' := by
  obtain ⟨CW', hCW'1, hCW'2, h1, hb, hlt, _⟩ := is_empty_spec h
  have hb0 : (is_empty s).1 = false := by
    rw [hb, decide_eq_false (by simp)]
  have hsplit : is_empty s = (false, (is_empty s).2) := Prod.ext hb0 rfl
  obtain ⟨hk, hlen, hRW, hpend, hcap, hCR, hWCR, hCW1, hCW2, hlw, hiw, hlr,
    hir, hcr, hcw, hslots⟩ := h1
  simp only [List.length_cons] at hpend
  have hidx : (is_empty s).2.local_idx_r &&& ((is_empty s).2.slots.length - 1) =
      R % 2 ^ k := by
    rw [hlr, hlen, mask_mod]
    exact mod_usize_mod_pow R k (Nat.le_of_lt hk)
  have hval : (is_empty s).2.slots.getD (R % 2 ^ k) none = some v := by
    have := hslots 0 (by simp)
    simpa using this
  have happ : peek_mut_apply s f =
      (some (f v),
       { (is_empty s).2 with
          slots := (is_empty s).2.slots.set (R % 2 ^ k) (some (f v)) }) := by
    unfold peek_mut_apply
    rw [hsplit]
    simp only [hidx, hval]
  refine ⟨by rw [happ], CW', ?_⟩
  rw [happ]
  exact
    { hk := hk
      hlen := by simp [hlen]
      hRW := hRW
      hpend := by simpa using hpend
      hcap := hcap
      hCR := hCR
      hWCR := hWCR
      hCW1 := hCW1
      hCW2 := hCW2
      hlw := hlw
      hiw := hiw
      hlr := hlr
      hir := hir
      hcr := hcr
      hcw := hcw
      hslots := by
        intro i hi
        simp only
        match i with
        | 0 =>
          rw [Nat.add_zero, getD_set_self _ _
            (by rw [hlen]; exact Nat.mod_lt _ (by positivity))]
          simp
        | j + 1 =>
          have hne : R % 2 ^ k ≠ (R + (j + 1)) % 2 ^ k := by
            apply mod_ne_of_lt_of_sub_lt R (R + (j + 1)) (2 ^ k) (by omega)
              (by simp only [List.length_cons] at hi; omega)
          rw [getD_set_ne _ _ _ hne, hslots (j + 1) (by simpa using hi)]
          simp }


/-! ### Trace-level lemmas -/

theorem runOps_spec {T : Type} (ops : List (Op T)) (s : RBState T)
    (pending : List T) (k W R CR CW : Nat) (h : InvG s pending k W R CR CW) :
    ∃ pending2 W2 R2 CR2 CW2, InvG (runOps ops s).2.2 pending2 k W2 R2 CR2 CW2 ∧
      pending ++ (runOps ops s).1 = (runOps ops s).2.1 ++ pending2 := by
  induction ops generalizing s pending W R CR CW with
  | nil =>
    exact ⟨pending, W, R, CR, CW, h, by simp [runOps]⟩
  | cons op ops ih =>
    cases op with
    | push v =>
      by_cases hfull : pending.length = 2 ^ k
      · have hp := push_full h hfull v
        have hrw : runOps (Op.push v :: ops) s =
            ((runOps ops s).1, (runOps ops s).2.1, (runOps ops s).2.2) := by
          simp [runOps, hp]
        obtain ⟨p2, W2, R2, CR2, CW2, hinv, heq⟩ := ih s pending W R CR CW h
        exact ⟨p2, W2, R2, CR2, CW2, by rw [hrw]; exact hinv, by rw [hrw]; exact heq⟩
      · have hle : pending.length ≤ 2 ^ k := by
          have h1 := h.hcap
          have h2 := h.hpend
          omega
        obtain ⟨hnone, CR', h2⟩ := push_succ h (by omega) v
        have hrw : runOps (Op.push v :: ops) s =
            (v :: (runOps ops (push s v).2).1, (runOps ops (push s v).2).2.1,
             (runOps ops (push s v).2).2.2) := by
          simp [runOps, hnone]
        obtain ⟨p2, W2, R2, CR2, CW2, hinv, heq⟩ :=
          ih (push s v).2 (pending ++ [v]) (W + 1) R CR' CW h2
        refine ⟨p2, W2, R2, CR2, CW2, by rw [hrw]; exact hinv, ?_⟩
        rw [hrw]
        simpa [List.append_assoc] using heq
    | pull =>
      cases pending with
      | nil =>
        have hp := pull_nil h
        have hrw : runOps (Op.pull :: ops) s =
            ((runOps ops s).1, (runOps ops s).2.1, (runOps ops s).2.2) := by
          simp [runOps, hp]
        obtain ⟨p2, W2, R2, CR2, CW2, hinv, heq⟩ := ih s [] W R CR CW h
        exact ⟨p2, W2, R2, CR2, CW2, by rw [hrw]; exact hinv, by rw [hrw]; exact heq⟩
      | cons v rest =>
        obtain ⟨hsome, CW', h2⟩ := pull_cons h
        have hrw : runOps (Op.pull :: ops) s =
            ((runOps ops (pull s).2).1, v :: (runOps ops (pull s).2).2.1,
             (runOps ops (pull s).2).2.2) := by
          simp [runOps, hsome]
        obtain ⟨p2, W2, R2, CR2, CW2, hinv, heq⟩ :=
          ih (pull s).2 rest W (R + 1) CR CW' h2
        refine ⟨p2, W2, R2, CR2, CW2, by rw [hrw]; exact hinv, ?_⟩
        rw [hrw]
        simpa using heq

theorem runOps_pushes {T : Type} (vs : List T) (s : RBState T)
    (pending : List T) (k W R CR CW : Nat) (h : InvG s pending k W R CR CW)
    (hroom : pending.length + vs.length ≤ 2 ^ k) :
    (runOps (vs.map Op.push) s).1 = vs ∧ (runOps (vs.map Op.push) s).2.1 = [] ∧
      ∃ CR2, InvG (runOps (vs.map Op.push) s).2.2 (pending ++ vs) k
        (W + vs.length) R CR2 CW := by
  induction vs generalizing s pending W CR with
  | nil =>
    exact ⟨by simp [runOps], by simp [runOps], CR, by simpa using h⟩
  | cons v vs ih =>
    have hlt : pending.length < 2 ^ k := by simp at hroom; omega
    obtain ⟨hnone, CR', h2⟩ := push_succ h hlt v
    have hrw : runOps ((v :: vs).map Op.push) s =
        (v :: (runOps (vs.map Op.push) (push s v).2).1,
         (runOps (vs.map Op.push) (push s v).2).2.1,
         (runOps (vs.map Op.push) (push s v).2).2.2) := by
      simp [runOps, hnone]
    obtain ⟨hacc, hpul, CR2, hinv⟩ :=
      ih (push s v).2 (pending ++ [v]) (W + 1) CR' h2
        (by simp at hroom ⊢; omega)
    refine ⟨by rw [hrw, hacc], by rw [hrw]; exact hpul, CR2, ?_⟩
    rw [hrw]
    have hl : pending ++ [v] ++ vs = pending ++ (v :: vs) := by
      simp [List.append_assoc]
    have hw : W + 1 + vs.length = W + (v :: vs).length := by
      simp
      omega
    rw [← hl, ← hw]
    exact hinv

theorem drainLoop_spec {T : Type} (pending : List T) :
    ∀ (slots : List (Option T)) (k R : Nat), k < 64 → slots.length = 2 ^ k →
    pending.length ≤ 2 ^ k →
    (∀ i, i < pending.length → slots.getD ((R + i) % 2 ^ k) none = pending[i]?) →
    (drainLoop (2 ^ k - 1) slots (R % USIZE) pending.length).2 =
      pending.map some := by
  induction pending with
  | nil =>
    intro slots k R _ _ _ _
    simp [drainLoop]
  | cons v rest ih =>
    intro slots k R hk hlen hle hslots
    have hidx : R % USIZE &&& (2 ^ k - 1) = R % 2 ^ k := by
      rw [mask_mod]
      exact mod_usize_mod_pow R k (Nat.le_of_lt hk)
    have hval : slots.getD (R % 2 ^ k) none = some v := by
      have := hslots 0 (by simp)
      simpa using this
    have hrec := ih (slots.set (R % 2 ^ k) none) k (R + 1) hk (by simp [hlen])
      (by simp at hle; omega)
      (by
        intro i hi
        have hne : R % 2 ^ k ≠ (R + 1 + i) % 2 ^ k := by
          apply mod_ne_of_lt_of_sub_lt R (R + 1 + i) (2 ^ k) (by omega)
            (by simp at hle; omega)
        rw [getD_set_ne _ _ _ hne]
        have hRi : R + 1 + i = R + (i + 1) := by omega
        rw [hRi, hslots (i + 1) (by simpa using hi)]
        simp)
    simp only [List.length_cons, drainLoop, hidx, hval]
    rw [← wadd1_ghost R] at hrec
    rw [hrec]
    simp

theorem rbDrop_spec {T : Type} {s : RBState T} {pending : List T}
    {k W R CR CW : Nat} (h : InvG s pending k W R CR CW) :
    rbDrop s = pending.map some := by
  have hcapU : (2 : Nat) ^ k < USIZE := pow_lt_usize k h.hk
  have hn : wrapping_sub s.idx_w s.idx_r = pending.length := by
    rw [h.hiw, h.hir, wsub_ghost R W h.hRW (by have := h.hcap; omega)]
    exact h.hpend
  unfold rbDrop
  rw [hn, h.hlen, h.hir]
  exact drainLoop_spec pending s.slots k R h.hk h.hlen
    (by have := h.hcap; have := h.hpend; omega) h.hslots

theorem ringbuffer_invG_pow {T : Type} {k : Nat} {s : RBState T} (hk : k < 64)
    (h : ringbuffer T (2 ^ k) = some s) : InvG s [] k 0 0 0 0 := by
  obtain ⟨k2, hk2, hpow, h0⟩ := ringbuffer_invG h (pow_lt_usize k hk)
  obtain rfl : k = k2 := Nat.pow_right_injective (by omega) hpow
  exact h0

theorem is_power_of_two_iff (n : Nat) :
    is_power_of_two n = true ↔ ∃ j, n = 2 ^ j := by
  simp only [is_power_of_two, decide_eq_true_eq]
  constructor
  · rintro ⟨j, _, hj⟩
    exact ⟨j, hj⟩
  · rintro ⟨j, hj⟩
    subst hj
    exact ⟨j, Nat.le_of_lt (Nat.lt_two_pow j), rfl⟩


/-! ### Capacity preservation -/

theorem capacity_is_full (s : RBState T) : (is_full s).2.capacity = s.capacity := by
  unfold is_full
  by_cases hc : wrapping_sub s.local_idx_w s.cached_idx_r = s.slots.length
  · rw [if_pos hc]
    rfl
  · rw [if_neg hc]

theorem capacity_is_empty (s : RBState T) : (is_empty s).2.capacity = s.capacity := by
  unfold is_empty
  by_cases hc : s.local_idx_r = s.cached_idx_w
  · rw [if_pos hc]
    rfl
  · rw [if_neg hc]

theorem capacity_push (s : RBState T) (v : T) : (push s v).2.capacity = s.capacity := by
  have h := capacity_is_full s
  unfold push
  split
  next s1 heq =>
    rw [heq] at h
    simpa [RBState.capacity] using h
  next s1 heq =>
    rw [heq] at h
    simpa [RBState.capacity] using h

theorem capacity_pull (s : RBState T) : (pull s).2.capacity = s.capacity := by
  have h := capacity_is_empty s
  unfold pull
  split
  next s1 heq =>
    rw [heq] at h
    simpa [RBState.capacity] using h
  next s1 heq =>
    rw [heq] at h
    simpa [RBState.capacity] using h

theorem capacity_peek (s : RBState T) : (peek s).2.capacity = s.capacity := by
  have h := capacity_is_empty s
  unfold peek
  split
  next s1 heq =>
    rw [heq] at h
    simpa [RBState.capacity] using h
  next s1 heq =>
    rw [heq] at h
    simpa [RBState.capacity] using h

theorem capacity_peek_mut (s : RBState T) (f : T → T) :
    (peek_mut_apply s f).2.capacity = s.capacity := by
  have h := capacity_is_empty s
  unfold peek_mut_apply
  split
  next s1 heq =>
    rw [heq] at h
    simpa [RBState.capacity] using h
  next s1 heq =>
    rw [heq] at h
    split
    · simpa [RBState.capacity] using h
    · simpa [RBState.capacity] using h


/-! ### Claim theorems -/

/-- C1: for every sequence of values pushed by the producer and pulled by the
consumer (in any sequential interleaving, the consumer retrying on empty),
the pulled sequence equals the accepted pushed sequence in order, with no
loss and no duplication: at every point the accepted pushes are exactly the
pulled values followed by the values still pending in the buffer, and once
the buffer is drained the two sequences coincide. -/
theorem C1_order_preservation {T : Type} (cap : Nat) (s0 : RBState T)
    (ops : List (Op T)) (hinit : ringbuffer T cap = some s0)
    (hcap : cap < USIZE) :
    ∃ pending, Inv (runOps ops s0).2.2 pending ∧
      (runOps ops s0).1 = (runOps ops s0).2.1 ++ pending ∧
      (pending = [] → (runOps ops s0).1 = (runOps ops s0).2.1) := by
  obtain ⟨k, hk, hcapk, h0⟩ := ringbuffer_invG hinit hcap
  obtain ⟨pending, W2, R2, CR2, CW2, hinv, heq⟩ :=
    runOps_spec ops s0 [] k 0 0 0 0 h0
  simp only [List.nil_append] at heq
  refine ⟨pending, ⟨k, W2, R2, CR2, CW2, hinv⟩, heq, ?_⟩
  rintro rfl
  simpa using heq

/-- C2: in a reachable state, if the buffer is definitively full (the
wrapping difference of the write index and the refreshed read index equals
the capacity) then `push v` returns `v` and leaves the state — shared storage
and both handles — completely unchanged; and if the buffer holds zero
elements then `pull` returns `none` and leaves the state completely
unchanged. -/
theorem C2_failed_ops_side_effect_free {T : Type} (s : RBState T)
    (pending : List T) (h : Inv s pending) :
    (∀ v, wrapping_sub s.local_idx_w s.idx_r = s.capacity →
      push s v = (some v, s)) ∧
    (pending = [] → pull s = (none, s)) := by
  obtain ⟨k, W, R, CR, CW, hg⟩ := h
  constructor
  · intro v hfull
    have hcapU : (2 : Nat) ^ k < USIZE := pow_lt_usize k hg.hk
    have hsub : wrapping_sub s.local_idx_w s.idx_r = W - R := by
      rw [hg.hlw, hg.hir]
      exact wsub_ghost R W hg.hRW (by have := hg.hcap; omega)
    have hlenfull : pending.length = 2 ^ k := by
      have h1 : s.capacity = 2 ^ k := hg.hlen
      have h2 := hg.hpend
      rw [hsub, h1] at hfull
      omega
    exact push_full hg hlenfull v
  · rintro rfl
    exact pull_nil hg

/-- C3: for every power-of-two capacity `2 ^ k`, pushing `2 ^ k` values into
a freshly constructed buffer succeeds for every push and fills the buffer
(`is_full` is true and the next push gives its argument back); pulling one
element then frees exactly one slot (the next push succeeds). -/
theorem C3_capacity_reclaim {T : Type} (k : Nat) (hk : k < 64) (vs : List T)
    (hlen : vs.length = 2 ^ k) (s0 : RBState T)
    (hinit : ringbuffer T (2 ^ k) = some s0) (w w2 : T) :
    (runOps (vs.map Op.push) s0).1 = vs ∧
    (is_full (runOps (vs.map Op.push) s0).2.2).1 = true ∧
    (push (runOps (vs.map Op.push) s0).2.2 w).1 = some w ∧
    (pull (runOps (vs.map Op.push) s0).2.2).1 = vs.head? ∧
    (push (pull (runOps (vs.map Op.push) s0).2.2).2 w2).1 = none := by
  have h0 := ringbuffer_invG_pow hk hinit
  obtain ⟨hacc, hpul, CR2, hinv⟩ :=
    runOps_pushes vs s0 [] k 0 0 0 0 h0 (by simpa using Nat.le_of_eq hlen)
  simp only [List.nil_append] at hinv
  have hfull : vs.length = 2 ^ k := hlen
  refine ⟨hacc, ?_, ?_, ?_, ?_⟩
  · obtain ⟨CR3, _, _, hb, _, _⟩ := is_full_spec hinv
    rw [hb, decide_eq_true_eq]
    exact hfull
  · rw [push_full hinv hfull w]
  · cases vs with
    | nil =>
      exfalso
      have : (0 : Nat) < 2 ^ k := Nat.pos_pow_of_pos k (by omega)
      simp at hlen
      omega
    | cons v rest =>
      rw [(pull_cons hinv).1]
      rfl
  · cases vs with
    | nil =>
      exfalso
      have : (0 : Nat) < 2 ^ k := Nat.pos_pow_of_pos k (by omega)
      simp at hlen
      omega
    | cons v rest =>
      obtain ⟨hv, CW3, hinv2⟩ := pull_cons hinv
      have hrest : rest.length < 2 ^ k := by
        simp at hfull
        omega
      exact (push_succ hinv2 hrest w2).1

/-- C4: on a non-empty reachable buffer, `peek` followed by `pull` with no
intervening push returns the same value from both calls, and `peek` does not
advance the read position (`local_idx_r` and the shared `idx_r` are
unchanged); `peek_mut` followed by a mutation of the referenced value
followed by `pull` yields the mutated value. -/
theorem C4_peek_pull_consistency {T : Type} (s : RBState T) (v : T)
    (rest : List T) (h : Inv s (v :: rest)) :
    (peek s).1 = some v ∧
    (peek s).2.local_idx_r = s.local_idx_r ∧ (peek s).2.idx_r = s.idx_r ∧
    (pull (peek s).2).1 = some v ∧
    (∀ f : T → T, (pull (peek_mut_apply s f).2).1 = some (f v)) := by
  obtain ⟨k, W, R, CR, CW, hg⟩ := h
  obtain ⟨hpk, CW2, hg2⟩ := peek_cons hg
  refine ⟨hpk, ?_, ?_, ?_, ?_⟩
  · rw [hg2.hlr, hg.hlr]
  · rw [hg2.hir, hg.hir]
  · exact (pull_cons hg2).1
  · intro f
    obtain ⟨hmv, CW3, hg3⟩ := peek_mut_cons hg f
    exact (pull_cons hg3).1


/-- C5: the constructor fails fatally (modelled by `none`) iff the capacity
is zero or not a power of two; otherwise it allocates exactly `capacity`
uninitialised slots, zero-initialises both shared indices and all four
handle-local fields, and `capacity()` returns the constructor argument and
is preserved by every operation (constant for the handle lifetime). -/
theorem C5_constructor_validation {T : Type} (cap : Nat) :
    (ringbuffer T cap = none ↔ (cap = 0 ∨ ¬ ∃ j, cap = 2 ^ j)) ∧
    (∀ s : RBState T, ringbuffer T cap = some s →
      s.slots = List.replicate cap none ∧ s.capacity = cap ∧
      s.idx_r = 0 ∧ s.idx_w = 0 ∧ s.cached_idx_r = 0 ∧ s.local_idx_w = 0 ∧
      s.local_idx_r = 0 ∧ s.cached_idx_w = 0) ∧
    (∀ (s2 : RBState T) (v : T) (f : T → T),
      (push s2 v).2.capacity = s2.capacity ∧
      (pull s2).2.capacity = s2.capacity ∧
      (is_full s2).2.capacity = s2.capacity ∧
      (is_empty s2).2.capacity = s2.capacity ∧
      (peek s2).2.capacity = s2.capacity ∧
      (peek_mut_apply s2 f).2.capacity = s2.capacity) := by
  refine ⟨?_, ?_, ?_⟩
  · unfold ringbuffer
    by_cases hp : is_power_of_two cap
    · rw [if_pos hp]
      simp only [reduceCtorEq, false_iff]
      rw [is_power_of_two_iff] at hp
      rintro (rfl | hno)
      · obtain ⟨j, hj⟩ := hp
        have : (0 : Nat) < 2 ^ j := Nat.pos_pow_of_pos j (by omega)
        omega
      · exact hno hp
    · rw [if_neg hp]
      simp only [true_iff]
      right
      intro hex
      exact hp ((is_power_of_two_iff cap).2 hex)
  · intro s hs
    unfold ringbuffer at hs
    by_cases hp : is_power_of_two cap
    · rw [if_pos hp] at hs
      obtain rfl : _ = s := Option.some_injective _ hs
      refine ⟨rfl, ?_, rfl, rfl, rfl, rfl, rfl, rfl⟩
      simp [RBState.capacity]
    · rw [if_neg hp] at hs
      exact absurd hs (by simp)
  · intro s2 v f
    exact ⟨capacity_push s2 v, capacity_pull s2, capacity_is_full s2,
      capacity_is_empty s2, capacity_peek s2, capacity_peek_mut s2 f⟩

/-- C6: indices are incremented with wrapping (modulo `2 ^ 64`) arithmetic
and occupancy is the wrapping difference of write and read index; for all
true counter values — including pairs straddling a wrap past the integer
maximum — the wrapping difference equals the true number of in-flight
elements as long as that number does not exceed the capacity, so in every
reachable state `is_full` answers true iff the occupancy equals the capacity
and `is_empty` answers true iff the occupancy is zero. -/
theorem C6_wrapping_index_arithmetic (T : Type) :
    (∀ a : Nat, wrapping_add1 a = (a + 1) % USIZE) ∧
    (∀ k W R : Nat, k < 64 → R ≤ W → W - R ≤ 2 ^ k →
      wrapping_sub (W % USIZE) (R % USIZE) = W - R ∧
      (wrapping_sub (W % USIZE) (R % USIZE) = 2 ^ k ↔ W - R = 2 ^ k) ∧
      (wrapping_sub (W % USIZE) (R % USIZE) = 0 ↔ W = R)) ∧
    (∀ (s : RBState T) (pending : List T), Inv s pending →
      ((is_full s).1 = true ↔ pending.length = s.capacity) ∧
      ((is_empty s).1 = true ↔ pending.length = 0)) := by
  refine ⟨fun a => rfl, ?_, ?_⟩
  · intro k W R hk hRW hle
    have hcapU : (2 : Nat) ^ k < USIZE := pow_lt_usize k hk
    have hsub : wrapping_sub (W % USIZE) (R % USIZE) = W - R :=
      wsub_ghost R W hRW (by omega)
    exact ⟨hsub, by rw [hsub], by rw [hsub]; omega⟩
  · intro s pending h
    obtain ⟨k, W, R, CR, CW, hg⟩ := h
    have hcap : s.capacity = 2 ^ k := hg.hlen
    obtain ⟨CR2, _, _, hbf, _, _⟩ := is_full_spec hg
    obtain ⟨CW2, _, _, _, hbe, _, _⟩ := is_empty_spec hg
    constructor
    · rw [hbf, hcap]
      simp
    · rw [hbe]
      simp

/-- C7: in every reachable state the wrapping difference of `local_idx_w`
and `cached_idx_r` is at most the capacity; `push` modifies a slot only when
the buffer occupancy is strictly below the capacity (so the writer never
overwrites an unconsumed slot); and every operation preserves reachability
(the invariant relating the state to some pending queue). -/
theorem C7_writer_window_invariant {T : Type} (s : RBState T)
    (pending : List T) (h : Inv s pending) :
    wrapping_sub s.local_idx_w s.cached_idx_r ≤ s.capacity ∧
    pending.length ≤ s.capacity ∧
    (∀ v, (push s v).2.slots ≠ s.slots → pending.length < s.capacity) ∧
    (∀ v, ∃ p2, Inv (push s v).2 p2) ∧
    (∃ p2, Inv (pull s).2 p2) ∧
    (∃ p2, Inv (peek s).2 p2) ∧
    (∀ f, ∃ p2, Inv (peek_mut_apply s f).2 p2) ∧
    (∃ p2, Inv (is_full s).2 p2) ∧
    (∃ p2, Inv (is_empty s).2 p2) := by
  obtain ⟨k, W, R, CR, CW, hg⟩ := h
  have hcapU : (2 : Nat) ^ k < USIZE := pow_lt_usize k hg.hk
  have hcap : s.capacity = 2 ^ k := hg.hlen
  have hsub : wrapping_sub s.local_idx_w s.cached_idx_r = W - CR := by
    rw [hg.hlw, hg.hcr]
    exact wsub_ghost CR W (le_trans hg.hCR hg.hRW) (by have := hg.hWCR; omega)
  have hple : pending.length ≤ 2 ^ k := by
    have h1 := hg.hcap
    have h2 := hg.hpend
    omega
  refine ⟨by rw [hsub, hcap]; exact hg.hWCR, by rw [hcap]; exact hple,
    ?_, ?_, ?_, ?_, ?_, ?_, ?_⟩
  · intro v hne
    rw [hcap]
    rcases Nat.lt_or_ge pending.length (2 ^ k) with hlt | hge
    · exact hlt
    · exfalso
      have hfull : pending.length = 2 ^ k := le_antisymm hple hge
      apply hne
      rw [push_full hg hfull v]
  · intro v
    rcases Nat.lt_or_ge pending.length (2 ^ k) with hlt | hge
    · obtain ⟨_, CR2, h2⟩ := push_succ hg hlt v
      exact ⟨pending ++ [v], k, W + 1, R, CR2, CW, h2⟩
    · have hfull : pending.length = 2 ^ k := le_antisymm hple hge
      rw [push_full hg hfull v]
      exact ⟨pending, k, W, R, CR, CW, hg⟩
  · cases pending with
    | nil =>
      rw [pull_nil hg]
      exact ⟨[], k, W, R, CR, CW, hg⟩
    | cons v rest =>
      obtain ⟨_, CW2, h2⟩ := pull_cons hg
      exact ⟨rest, k, W, R + 1, CR, CW2, h2⟩
  · cases pending with
    | nil =>
      rw [peek_nil hg]
      exact ⟨[], k, W, R, CR, CW, hg⟩
    | cons v rest =>
      obtain ⟨_, CW2, h2⟩ := peek_cons hg
      exact ⟨v :: rest, k, W, R, CR, CW2, h2⟩
  · intro f
    cases pending with
    | nil =>
      rw [peek_mut_nil hg f]
      exact ⟨[], k, W, R, CR, CW, hg⟩
    | cons v rest =>
      obtain ⟨_, CW2, h2⟩ := peek_mut_cons hg f
      exact ⟨f v :: rest, k, W, R, CR, CW2, h2⟩
  · obtain ⟨CR2, _, h2, _, _, _⟩ := is_full_spec hg
    exact ⟨pending, k, W, R, CR2, CW, h2⟩
  · obtain ⟨CW2, _, _, h2, _, _, _⟩ := is_empty_spec hg
    exact ⟨pending, k, W, R, CR, CW2, h2⟩

/-- C8: teardown destroys exactly the values pushed and not yet pulled, each
exactly once and in order: after any sequence of operations on a freshly
constructed buffer, the drop loop takes precisely the accepted pushes minus
the pulled prefix, so after `K` accepted pushes and `J` pulls exactly
`K - J` element destructors run. -/
theorem C8_teardown_exactly_once {T : Type} (cap : Nat) (s0 : RBState T)
    (ops : List (Op T)) (hinit : ringbuffer T cap = some s0)
    (hcap : cap < USIZE) :
    rbDrop (runOps ops s0).2.2 =
      ((runOps ops s0).1.drop (runOps ops s0).2.1.length).map some ∧
    (rbDrop (runOps ops s0).2.2).length =
      (runOps ops s0).1.length - (runOps ops s0).2.1.length := by
  obtain ⟨k, hk, hcapk, h0⟩ := ringbuffer_invG hinit hcap
  obtain ⟨pending, W2, R2, CR2, CW2, hinv, heq⟩ :=
    runOps_spec ops s0 [] k 0 0 0 0 h0
  simp only [List.nil_append] at heq
  have hdrop : ((runOps ops s0).1.drop (runOps ops s0).2.1.length) = pending := by
    rw [heq]
    exact List.drop_left _ _
  have hd := rbDrop_spec hinv
  constructor
  · rw [hdrop, hd]
  · rw [hd, heq]
    simp

/-- C10: `is_full` performs the refresh assignment of `cached_idx_r` from the
shared `idx_r` exactly when the fast-path wrapping difference equals the
capacity and otherwise leaves the state untouched; symmetrically `is_empty`
refreshes `cached_idx_w` exactly when `local_idx_r` equals `cached_idx_w`; a
push that fails and a pull that returns absent end in exactly the state left
by that check, which never modifies the slots or the shared indices — only
the calling handle's cached index. -/
theorem C10_cached_index_refresh {T : Type} (s : RBState T) (v : T) :
    (is_full s).2 =
      (if wrapping_sub s.local_idx_w s.cached_idx_r = s.capacity
        then { s with cached_idx_r := s.idx_r } else s) ∧
    (wrapping_sub s.local_idx_w s.cached_idx_r ≠ s.capacity →
      (is_full s).2 = s) ∧
    (is_empty s).2 =
      (if s.local_idx_r = s.cached_idx_w
        then { s with cached_idx_w := s.idx_w } else s) ∧
    (s.local_idx_r ≠ s.cached_idx_w → (is_empty s).2 = s) ∧
    ((is_full s).1 = true → push s v = (some v, (is_full s).2)) ∧
    ((is_empty s).1 = true → pull s = (none, (is_empty s).2)) ∧
    (is_full s).2.slots = s.slots ∧ (is_full s).2.idx_r = s.idx_r ∧
    (is_full s).2.idx_w = s.idx_w ∧ (is_full s).2.local_idx_w = s.local_idx_w ∧
    (is_empty s).2.slots = s.slots ∧ (is_empty s).2.idx_r = s.idx_r ∧
    (is_empty s).2.idx_w = s.idx_w ∧
    (is_empty s).2.local_idx_r = s.local_idx_r := by
  have hf : (is_full s).2 =
      (if wrapping_sub s.local_idx_w s.cached_idx_r = s.capacity
        then { s with cached_idx_r := s.idx_r } else s) := by
    unfold is_full RBState.capacity
    by_cases hc : wrapping_sub s.local_idx_w s.cached_idx_r = s.slots.length
    · rw [if_pos hc, if_pos hc]
    · rw [if_neg hc, if_neg hc]
  have he : (is_empty s).2 =
      (if s.local_idx_r = s.cached_idx_w
        then { s with cached_idx_w := s.idx_w } else s) := by
    unfold is_empty
    by_cases hc : s.local_idx_r = s.cached_idx_w
    · rw [if_pos hc, if_pos hc]
    · rw [if_neg hc, if_neg hc]
  refine ⟨hf, ?_, he, ?_, ?_, ?_, ?_, ?_, ?_, ?_, ?_, ?_, ?_, ?_⟩
  · intro hne
    rw [hf, if_neg (by rw [RBState.capacity] at hne ⊢; exact hne)]
  · intro hne
    rw [he, if_neg hne]
  · intro hb
    have hsplit : is_full s = (true, (is_full s).2) := Prod.ext hb rfl
    unfold push
    rw [hsplit]
  · intro hb
    have hsplit : is_empty s = (true, (is_empty s).2) := Prod.ext hb rfl
    unfold pull
    rw [hsplit]
  · rw [hf]
    split <;> rfl
  · rw [hf]
    split <;> rfl
  · rw [hf]
    split <;> rfl
  · rw [hf]
    split <;> rfl
  · rw [he]
    split <;> rfl
  · rw [he]
    split <;> rfl
  · rw [he]
    split <;> rfl
  · rw [he]
    split <;> rfl


/-! ### Concrete example states used by the witnesses -/

/-- Freshly constructed buffer of capacity 2. -/
def exEmpty : RBState Nat :=
  { slots := List.replicate 2 none, idx_r := 0, idx_w := 0, cached_idx_r := 0,
    local_idx_w := 0, local_idx_r := 0, cached_idx_w := 0 }

/-- Capacity-2 buffer holding the single pending value 7. -/
def exOne : RBState Nat :=
  { slots := [some 7, none], idx_r := 0, idx_w := 1, cached_idx_r := 0,
    local_idx_w := 1, local_idx_r := 0, cached_idx_w := 0 }

/-- Capacity-2 buffer holding the pending values 10 and 11 (full). -/
def exFull : RBState Nat :=
  { slots := [some 10, some 11], idx_r := 0, idx_w := 2, cached_idx_r := 0,
    local_idx_w := 2, local_idx_r := 0, cached_idx_w := 0 }

theorem inv_exEmpty : Inv exEmpty [] :=
  ⟨1, 0, 0, 0, 0,
    { hk := by decide, hlen := by decide, hRW := by decide, hpend := by decide,
      hcap := by decide, hCR := by decide, hWCR := by decide,
      hCW1 := by decide, hCW2 := by decide, hlw := by decide, hiw := by decide,
      hlr := by decide, hir := by decide, hcr := by decide, hcw := by decide,
      hslots := by decide }⟩

theorem inv_exOne : Inv exOne [7] :=
  ⟨1, 1, 0, 0, 0,
    { hk := by decide, hlen := by decide, hRW := by decide, hpend := by decide,
      hcap := by decide, hCR := by decide, hWCR := by decide,
      hCW1 := by decide, hCW2 := by decide, hlw := by decide, hiw := by decide,
      hlr := by decide, hir := by decide, hcr := by decide, hcw := by decide,
      hslots := by decide }⟩

theorem inv_exFull : Inv exFull [10, 11] :=
  ⟨1, 2, 0, 0, 0,
    { hk := by decide, hlen := by decide, hRW := by decide, hpend := by decide,
      hcap := by decide, hCR := by decide, hWCR := by decide,
      hCW1 := by decide, hCW2 := by decide, hlw := by decide, hiw := by decide,
      hlr := by decide, hir := by decide, hcr := by decide, hcw := by decide,
      hslots := by decide }⟩

/-! ### Witnesses -/

/-- Witness for C1 at capacity 2 with two pushes and one pull. -/
theorem C1_order_preservation_witness :
    ∃ pending,
      Inv (runOps [Op.push 3, Op.push 4, Op.pull] exEmpty).2.2 pending ∧
      (runOps [Op.push 3, Op.push 4, Op.pull] exEmpty).1 =
        (runOps [Op.push 3, Op.push 4, Op.pull] exEmpty).2.1 ++ pending ∧
      (pending = [] → (runOps [Op.push 3, Op.push 4, Op.pull] exEmpty).1 =
        (runOps [Op.push 3, Op.push 4, Op.pull] exEmpty).2.1) :=
  C1_order_preservation 2 exEmpty [Op.push 3, Op.push 4, Op.pull] rfl
    (by decide)

/-- Witness for C2: a failed push on a full buffer and a failed pull on an
empty buffer return their answers without changing anything. -/
theorem C2_failed_ops_side_effect_free_witness :
    push exFull 9 = (some 9, exFull) ∧ pull exEmpty = (none, exEmpty) :=
  ⟨(C2_failed_ops_side_effect_free exFull [10, 11] inv_exFull).1 9 (by decide),
   (C2_failed_ops_side_effect_free exEmpty [] inv_exEmpty).2 rfl⟩

/-- Witness for C3 at capacity `2 ^ 1` with the pushed values 5 and 6. -/
theorem C3_capacity_reclaim_witness :
    (runOps ([5, 6].map Op.push) exEmpty).1 = [5, 6] ∧
    (is_full (runOps ([5, 6].map Op.push) exEmpty).2.2).1 = true ∧
    (push (runOps ([5, 6].map Op.push) exEmpty).2.2 8).1 = some 8 ∧
    (pull (runOps ([5, 6].map Op.push) exEmpty).2.2).1 = [5, 6].head? ∧
    (push (pull (runOps ([5, 6].map Op.push) exEmpty).2.2).2 9).1 = none :=
  C3_capacity_reclaim 1 (by decide) [5, 6] (by decide) exEmpty rfl 8 9

/-- Witness for C4 on a one-element buffer holding 7, mutating with `+ 1`. -/
theorem C4_peek_pull_consistency_witness :
    (peek exOne).1 = some 7 ∧ (pull (peek exOne).2).1 = some 7 ∧
    (pull (peek_mut_apply exOne (fun x => x + 1)).2).1 = some 8 := by
  obtain ⟨h1, h2, h3, h4, h5⟩ := C4_peek_pull_consistency exOne 7 [] inv_exOne
  exact ⟨h1, h4, h5 (fun x => x + 1)⟩

/-- Witness for C5: capacity 3 is rejected, capacity 2 yields the
zero-initialised state, and `capacity()` is preserved by `push`. -/
theorem C5_constructor_validation_witness :
    ringbuffer Nat 3 = none ∧ exEmpty.slots = List.replicate 2 none ∧
    exEmpty.capacity = 2 ∧ (push exOne 5).2.capacity = exOne.capacity := by
  have hno3 : ¬ ∃ j, (3 : Nat) = 2 ^ j := by
    rintro ⟨j, hj⟩
    rcases j with _ | _ | j
    · exact absurd hj (by decide)
    · exact absurd hj (by decide)
    · have h4 : (4 : Nat) ≤ 2 ^ (j + 2) := by
        have h2 : (2 : Nat) ^ 2 ≤ 2 ^ (j + 2) :=
          Nat.pow_le_pow_right (by omega) (by omega)
        simpa using h2
      omega
  obtain ⟨hiff3, _, _⟩ := C5_constructor_validation (T := Nat) 3
  obtain ⟨_, hsome2, hpres2⟩ := C5_constructor_validation (T := Nat) 2
  exact ⟨hiff3.mpr (Or.inr hno3), (hsome2 exEmpty rfl).1,
    (hsome2 exEmpty rfl).2.1, (hpres2 exOne 5 id).1⟩

/-- Witness for C6 at a pair of counters straddling the `usize` wraparound
(read counter `USIZE - 1`, write counter `USIZE + 1`, occupancy 2). -/
theorem C6_wrapping_index_arithmetic_witness :
    wrapping_sub ((USIZE + 1) % USIZE) ((USIZE - 1) % USIZE) = 2 ∧
    (is_full exFull).1 = true ∧ (is_empty exEmpty).1 = true := by
  obtain ⟨hadd, hsub, hfe⟩ := C6_wrapping_index_arithmetic Nat
  refine ⟨?_, ?_, ?_⟩
  · have h := (hsub 4 (USIZE + 1) (USIZE - 1) (by decide) (by decide)
      (by decide)).1
    rw [h]
    decide
  · exact ((hfe exFull [10, 11] inv_exFull).1).mpr (by decide)
  · exact ((hfe exEmpty [] inv_exEmpty).2).mpr rfl

/-- Witness for C7 on the full two-element buffer. -/
theorem C7_writer_window_invariant_witness :
    wrapping_sub exFull.local_idx_w exFull.cached_idx_r ≤ exFull.capacity ∧
    (∃ p2, Inv (pull exFull).2 p2) := by
  obtain ⟨h1, h2, h3, h4, h5, h6, h7, h8, h9⟩ :=
    C7_writer_window_invariant exFull [10, 11] inv_exFull
  exact ⟨h1, h5⟩

/-- Witness for C8: after accepting pushes of 3 and 4 and pulling once,
teardown destroys exactly the remaining value 4. -/
theorem C8_teardown_exactly_once_witness :
    rbDrop (runOps [Op.push 3, Op.push 4, Op.pull] exEmpty).2.2 = [some 4] := by
  have h := (C8_teardown_exactly_once 2 exEmpty [Op.push 3, Op.push 4, Op.pull]
    rfl (by decide)).1
  rw [h]
  rfl

/-- Witness for C10: a failed push ends in the state left by `is_full`, the
check never touches the slots, and `is_full` with a sub-capacity fast-path
difference changes nothing. -/
theorem C10_cached_index_refresh_witness :
    push exFull 9 = (some 9, (is_full exFull).2) ∧
    (is_full exFull).2.slots = exFull.slots ∧
    (is_full exOne).2 = exOne := by
  have hA := C10_cached_index_refresh exFull 9
  have hB := C10_cached_index_refresh exOne 7
  exact ⟨hA.2.2.2.2.1 (by decide), hA.2.2.2.2.2.2.1, hB.2.1 (by decide)⟩

end Spsc
